import Mathlib

/-!
Verification of the binary-recovery core of the retro-football-manager
data-parsing scripts (`scot94_extract.py`, `extract_all_names.py`,
`scot94_extract_with_attrs_and_solver.py`).

Python strings are modelled as `List Char`, byte buffers as `List Nat`
(each entry one byte).  Python's `bytes.decode("cp437", errors="ignore")`
never drops a byte (cp437 decodes all 256 byte values); bytes below 0x80
decode to the identical ASCII code point, byte 0xFF decodes to U+00A0
(no-break space, which Python's `str.strip` removes), and the remaining
high bytes decode to accented cp437 glyphs.  None of those glyphs occurs
in the scripts' `ALLOWED_CHARS` set and none of them is whitespace, so
for the validation logic under proof only their distinctness matters;
the model maps high byte `b` (other than 0xFF) to code point `0x100 + b`.
-/

set_option maxRecDepth 100000

namespace Scot94

/-- One Python string, modelled as its list of characters. -/
abbrev Tok := List Char

/-- Model of Python's `str.isspace` on the code points that can come out of
the cp437 decoding model: space, 0x09–0x0D, 0x1C–0x1F, U+0085, U+00A0. -/
def pyIsSpace (c : Char) : Bool :=
  c.toNat == 32 || (9 ≤ c.toNat && c.toNat ≤ 13) || (28 ≤ c.toNat && c.toNat ≤ 31) ||
    c.toNat == 0x85 || c.toNat == 0xA0

/-- Model of the cp437 single-byte decoding used via
`raw.decode("cp437", errors="ignore")`: identity on 0x00–0x7F, 0xFF ↦ U+00A0,
and the other high bytes mapped injectively to non-ASCII, non-whitespace,
non-allowed code points (see the header comment). -/
def cp437 (b : Nat) : Char :=
  if b < 0x80 then Char.ofNat b
  else if b = 0xFF then Char.ofNat 0xA0
  else Char.ofNat (0x100 + b)

/-- Python `str.strip()`: drop leading and trailing whitespace. -/
def pyStrip (s : Tok) : Tok :=
  ((s.dropWhile pyIsSpace).reverse.dropWhile pyIsSpace).reverse

/-- Membership in `ALLOWED_CHARS = set("A..Za..z '-.")`. -/
def allowedChar (c : Char) : Bool :=
  c.isAlpha || c == ' ' || c == '\'' || c == '-' || c == '.'

/-- The characters the tokenizer keeps: letters, apostrophes, hyphens
(`ch.isalpha() or ch in ("'", "-")`). -/
def nameChar (c : Char) : Bool :=
  c.isAlpha || c == '\'' || c == '-'

/-! ## Token Segmenter, variant 1: `tokenize_mixed` (scot94_extract.py) -/

/-- The tokenizer's `flush()` helper: append `cur` to `tokens` if non-empty. -/
def tm_flush (tokens : List Tok) (cur : Tok) : List Tok :=
  if cur = [] then tokens else tokens ++ [cur]

/-- One step of the character loop of `tokenize_mixed`.  State is
`(tokens, cur)`. -/
def tm_step (st : List Tok × Tok) (ch : Char) : List Tok × Tok :=
  if ch == ' ' then (tm_flush st.1 st.2, [])
  else if !nameChar ch then (tm_flush st.1 st.2, [])
  else if !st.2.isEmpty && ch.isUpper && st.2.getLast?.any Char.isLower then
    (tm_flush st.1 st.2, [ch])
  else (st.1, st.2 ++ [ch])

/-- The boundary pass of `tokenize_mixed`: the character loop followed by the
final `flush()`. -/
def tm_boundary (s : List Char) : List Tok :=
  let st := s.foldl tm_step ([], [])
  tm_flush st.1 st.2

/-- The `merge Mc + X` pass of `tokenize_mixed`: whenever `tokens[i] == "Mc"`
and a next token exists, concatenate them and skip both. -/
def tm_mergeMc : List Tok → List Tok
  | [] => []
  | [t] => [t]
  | t :: u :: rest =>
    if t = "Mc".toList then ("Mc".toList ++ u) :: tm_mergeMc rest
    else t :: tm_mergeMc (u :: rest)

/-- The `merge Mac + X` pass of `tokenize_mixed`. -/
def tm_mergeMac : List Tok → List Tok
  | [] => []
  | [t] => [t]
  | t :: u :: rest =>
    if t = "Mac".toList then ("Mac".toList ++ u) :: tm_mergeMac rest
    else t :: tm_mergeMac (u :: rest)

/-- Model of `tokenize_mixed` from `scot94_extract.py`: boundary pass, then the Mc
merge pass, then the Mac merge pass. -/
def tokenize_mixed (s : List Char) : List Tok :=
  tm_mergeMac (tm_mergeMc (tm_boundary s))

/-! ## Token Segmenter, variant 2: `split_concatenated_names`
(extract_all_names.py) -/

/-- The character loop of `split_concatenated_names`.  `cur` starts as the
first character of the blob; `prev` in the source is always the last
character of `cur`. -/
def sc_go (cur : Tok) : List Char → List Tok
  | [] => [cur]
  | ch :: rest =>
    if ch.isUpper && cur.getLast?.any Char.isLower then
      if "Mac".toList.isSuffixOf cur || "Mc".toList.isSuffixOf cur then
        sc_go (cur ++ [ch]) rest
      else cur :: sc_go [ch] rest
    else sc_go (cur ++ [ch]) rest

/-- The merge pass of `split_concatenated_names`: merge `"Mc"` with the next
token only when the next token's first character is uppercase.  (There is no
`"Mac"` merge pass in this variant.) -/
def sc_mergeMc : List Tok → List Tok
  | [] => []
  | [t] => [t]
  | t :: u :: rest =>
    if t = "Mc".toList && u.head?.any Char.isUpper then
      ("Mc".toList ++ u) :: sc_mergeMc rest
    else t :: sc_mergeMc (u :: rest)

/-- Model of `split_concatenated_names` from `extract_all_names.py`. -/
def split_concatenated_names (blob : List Char) : List Tok :=
  match blob with
  | [] => []
  | c :: rest => sc_mergeMc (sc_go [c] rest)

/-- The boundary pass of `split_concatenated_names` on its own (everything
before the merge pass). -/
def sc_boundary (blob : List Char) : List Tok :=
  match blob with
  | [] => []
  | c :: rest => sc_go [c] rest

/-! ## Slot Table Scanner: `read_slot16` and `find_slot16_tables` -/

/-- The declared length byte of the slot at `off`: `blk[0]` for
`blk = data[off : off + 16]`. -/
def slotLen (data : List Nat) (off : Nat) : Nat :=
  ((data.drop off).take 16).headD 0

/-- The decoded text bytes of the slot at `off`: `blk[1 : 1 + L]` decoded
through cp437 (before stripping). -/
def slotRaw (data : List Nat) (off : Nat) : Tok :=
  ((((data.drop off).take 16).drop 1).take (slotLen data off)).map cp437

/-- Model of `read_slot16` from `scot94_extract.py`: decode one 16-byte
`[len][text...][padding...]` slot at `off`, or `none` if any check fails.
The `try/except` around the decode can never fire (cp437 decodes every
byte), so it is not modelled. -/
def read_slot16 (data : List Nat) (off : Nat) : Option Tok :=
  if off + 16 > data.length then none
  else if slotLen data off < 1 ∨ 15 < slotLen data off then none
  else if pyStrip (slotRaw data off) = [] ∨
      (pyStrip (slotRaw data off)).any Char.isAlpha = false then none
  else if (pyStrip (slotRaw data off)).any (fun c => !allowedChar c) = true then none
  else some (pyStrip (slotRaw data off))

/-- A successful slot decode implies the whole slot lies inside the buffer. -/
theorem read_slot16_bound {data : List Nat} {off : Nat} {s : Tok}
    (h : read_slot16 data off = some s) : off + 16 ≤ data.length := by
  unfold read_slot16 at h
  by_cases hb : off + 16 > data.length
  · simp [hb] at h
  · omega

/-- The inner `while True` loop of `find_slot16_tables`: collect consecutive
valid slots at stride 16 starting at `off`. -/
def slotRun (data : List Nat) (off : Nat) : List (Nat × Tok) :=
  match h : read_slot16 data off with
  | none => []
  | some s => (off, s) :: slotRun data (off + 16)
termination_by data.length - off
decreasing_by
  have := read_slot16_bound h
  omega

/-- Unfolding `slotRun` on a valid slot. -/
theorem slotRun_cons {data : List Nat} {off : Nat} {s : Tok}
    (h : read_slot16 data off = some s) :
    slotRun data off = (off, s) :: slotRun data (off + 16) := by
  rw [slotRun.eq_def]
  split
  · next h' => rw [h'] at h; cases h
  · next s' h' => rw [h'] at h; cases h; rfl

/-- Unfolding `slotRun` on an invalid slot. -/
theorem slotRun_nil {data : List Nat} {off : Nat}
    (h : read_slot16 data off = none) : slotRun data off = [] := by
  rw [slotRun.eq_def]
  split
  · rfl
  · next s' h' => rw [h'] at h; cases h

/-- The outer scan loop of `find_slot16_tables`: accept a run as a table only
if its length is at least 8 and jump past it, otherwise advance one byte. -/
def slot_tables_go (data : List Nat) (i : Nat) : List (List (Nat × Tok)) :=
  if h : i < data.length - 16 then
    if h8 : 8 ≤ (slotRun data i).length then
      slotRun data i :: slot_tables_go data (i + 16 * (slotRun data i).length)
    else slot_tables_go data (i + 1)
  else []
termination_by data.length - i
decreasing_by
  · omega
  · omega

/-- Model of `find_slot16_tables` from `scot94_extract.py`. -/
def find_slot16_tables (data : List Nat) : List (List (Nat × Tok)) :=
  slot_tables_go data 0

/-- If `n` consecutive slots starting at `base` decode and the `(n+1)`-st does
not, the run collects exactly those `n` offsets. -/
theorem slotRun_map_fst (data : List Nat) :
    ∀ (n base : Nat), (∀ k, k < n → (read_slot16 data (base + 16 * k)).isSome) →
      read_slot16 data (base + 16 * n) = none →
      (slotRun data base).map Prod.fst = (List.range n).map (fun k => base + 16 * k) := by
  intro n
  induction n with
  | zero =>
    intro base _ hn
    rw [slotRun_nil (by simpa using hn)]
    simp
  | succ m ih =>
    intro base h hm
    have h0 : (read_slot16 data (base + 16 * 0)).isSome := h 0 (by omega)
    rw [Option.isSome_iff_exists] at h0
    obtain ⟨s, hs⟩ := h0
    rw [show base + 16 * 0 = base by omega] at hs
    rw [slotRun_cons hs]
    have ih' := ih (base + 16)
      (fun k hk => by
        have := h (k + 1) (by omega)
        simpa [Nat.mul_add, Nat.add_assoc, Nat.add_comm, Nat.add_left_comm] using this)
      (by
        have : base + 16 + 16 * m = base + 16 * (m + 1) := by ring
        rw [this]; exact hm)
    rw [List.map_cons, ih', List.range_succ_eq_map]
    simp only [List.map_cons, List.map_map, Nat.mul_zero, Nat.add_zero]
    congr 1
    apply List.map_congr_left
    intro k _
    simp [Function.comp]
    ring

/-- C2: a buffer of exactly 10 consecutive valid 16-byte slot records
followed by one invalid record yields exactly one table, containing exactly
the 10 valid records (at offsets 0, 16, …, 144) — the invalid record at
offset 160 is not included and no second table is reported. -/
theorem c2_ten_valid_slots_one_table (data : List Nat)
    (hlen : data.length = 176)
    (hvalid : ∀ k, k < 10 → (read_slot16 data (16 * k)).isSome)
    (hbad : read_slot16 data 160 = none) :
    find_slot16_tables data = [slotRun data 0] ∧
    (slotRun data 0).length = 10 ∧
    (slotRun data 0).map Prod.fst = (List.range 10).map (fun k => 16 * k) := by
  have hfst : (slotRun data 0).map Prod.fst = (List.range 10).map (fun k => 0 + 16 * k) :=
    slotRun_map_fst data 10 0 (fun k hk => by simpa using hvalid k hk) (by simpa using hbad)
  have hfst' : (slotRun data 0).map Prod.fst = (List.range 10).map (fun k => 16 * k) := by
    simpa using hfst
  have hlen10 : (slotRun data 0).length = 10 := by
    have := congrArg List.length hfst'
    simpa using this
  refine ⟨?_, hlen10, hfst'⟩
  unfold find_slot16_tables
  rw [slot_tables_go]
  rw [dif_pos (by omega : (0:Nat) < data.length - 16)]
  rw [dif_pos (by omega : 8 ≤ (slotRun data 0).length)]
  rw [hlen10, slot_tables_go]
  rw [dif_neg (by omega : ¬ (0 + 16 * 10 < data.length - 16))]

/-- A single valid 16-byte slot: length byte 8, text "Aberdeen", 7 padding
zero bytes. -/
def slotAber : List Nat := [8] ++ "Aberdeen".toList.map Char.toNat ++ List.replicate 7 0

/-- Witness buffer for C2: ten valid slots followed by one invalid
(all-zero) 16-byte record. -/
def c2buf : List Nat := (List.replicate 10 slotAber).flatten ++ List.replicate 16 0

theorem c2_ten_valid_slots_one_table_witness :
    find_slot16_tables c2buf = [slotRun c2buf 0] ∧
    (slotRun c2buf 0).length = 10 ∧
    (slotRun c2buf 0).map Prod.fst = (List.range 10).map (fun k => 16 * k) :=
  c2_ten_valid_slots_one_table c2buf (by decide) (by decide) (by decide)

/-! ## Length accounting for `str.strip` (claim C9) -/

/-- A `takeWhile` over an append ignores the right part as soon as the left
part contains an element failing the predicate. -/
theorem takeWhile_append_left {α : Type} (p : α → Bool) (l t : List α)
    (h : ∃ x ∈ l, ¬ p x = true) : (l ++ t).takeWhile p = l.takeWhile p := by
  induction l with
  | nil => simp at h
  | cons a l ih =>
    rw [List.cons_append, List.takeWhile_cons, List.takeWhile_cons]
    by_cases hp : p a
    · rw [if_pos hp, if_pos hp]
      congr 1
      apply ih
      obtain ⟨x, hx, hpx⟩ := h
      rcases List.mem_cons.mp hx with rfl | hx'
      · exact absurd hp hpx
      · exact ⟨x, hx', hpx⟩
    · rw [if_neg hp, if_neg hp]

/-- The two halves of the `takeWhile`/`dropWhile` split account for the whole
length. -/
theorem length_dropWhile_add {α : Type} (p : α → Bool) (l : List α) :
    (l.dropWhile p).length + (l.takeWhile p).length = l.length := by
  conv_rhs => rw [← List.takeWhile_append_dropWhile p l]
  rw [List.length_append]
  omega

/-- The head of a non-empty `dropWhile` fails the predicate. -/
theorem dropWhile_head_false {α : Type} (p : α → Bool) (l : List α) (a : α) (t : List α)
    (h : l.dropWhile p = a :: t) : p a = false := by
  induction l with
  | nil => simp at h
  | cons x xs ih =>
    rw [List.dropWhile_cons] at h
    by_cases hp : p x
    · rw [if_pos hp] at h; exact ih h
    · rw [if_neg hp] at h; cases h; simpa using hp

/-- When the stripped string is non-empty, `str.strip` removes exactly the
leading and the trailing whitespace runs. -/
theorem pyStrip_length (l : Tok) (hne : pyStrip l ≠ []) :
    (pyStrip l).length + (l.takeWhile pyIsSpace).length
      + (l.reverse.takeWhile pyIsSpace).length = l.length := by
  have hAne : l.dropWhile pyIsSpace ≠ [] := by
    intro h0
    apply hne
    unfold pyStrip
    rw [h0]
    rfl
  obtain ⟨a, t, hat⟩ := List.exists_cons_of_ne_nil hAne
  have hpa : pyIsSpace a = false := dropWhile_head_false pyIsSpace l a t hat
  have hsplit : l.takeWhile pyIsSpace ++ l.dropWhile pyIsSpace = l :=
    List.takeWhile_append_dropWhile pyIsSpace l
  have hrev : l.reverse = (l.dropWhile pyIsSpace).reverse ++ (l.takeWhile pyIsSpace).reverse := by
    rw [← List.reverse_append, hsplit]
  have hmem : ∃ x ∈ (l.dropWhile pyIsSpace).reverse, ¬ pyIsSpace x = true := by
    refine ⟨a, ?_, by simp [hpa]⟩
    rw [hat]
    simp
  have htw : l.reverse.takeWhile pyIsSpace
      = (l.dropWhile pyIsSpace).reverse.takeWhile pyIsSpace := by
    rw [hrev]
    exact takeWhile_append_left pyIsSpace _ _ hmem
  have hps : pyStrip l = ((l.dropWhile pyIsSpace).reverse.dropWhile pyIsSpace).reverse := rfl
  have h1 := length_dropWhile_add pyIsSpace l
  have h2 := length_dropWhile_add pyIsSpace (l.dropWhile pyIsSpace).reverse
  have h3 : (l.dropWhile pyIsSpace).reverse.length = (l.dropWhile pyIsSpace).length :=
    List.length_reverse _
  rw [hps, List.length_reverse, htw]
  omega

/-- C9 (amended): every valid slot decode has `1 ≤ L ≤ 15`, and the decoded
text has length `L` minus the number of leading and trailing whitespace
characters among the `L` decoded text bytes (Python's `strip()` removes both
ends, not only trailing padding). -/
theorem c9_slot_decode_lengths (data : List Nat) (off : Nat) (s : Tok)
    (h : read_slot16 data off = some s) :
    1 ≤ slotLen data off ∧ slotLen data off ≤ 15 ∧
    s.length + ((slotRaw data off).takeWhile pyIsSpace).length
      + ((slotRaw data off).reverse.takeWhile pyIsSpace).length = slotLen data off := by
  unfold read_slot16 at h
  split_ifs at h with h1 h2 h3 h4
  cases h
  push_neg at h2 h3
  have hraw : (slotRaw data off).length = slotLen data off := by
    unfold slotRaw
    rw [List.length_map, List.length_take, List.length_drop, List.length_take]
    rw [List.length_drop]
    omega
  have hlen := pyStrip_length (slotRaw data off) h3.1
  rw [hraw] at hlen
  exact ⟨by omega, by omega, hlen⟩

theorem c9_slot_decode_lengths_witness :
    1 ≤ slotLen slotAber 0 ∧ slotLen slotAber 0 ≤ 15 ∧
    ("Aberdeen".toList).length + ((slotRaw slotAber 0).takeWhile pyIsSpace).length
      + ((slotRaw slotAber 0).reverse.takeWhile pyIsSpace).length = slotLen slotAber 0 :=
  c9_slot_decode_lengths slotAber 0 "Aberdeen".toList (by decide)

/-- A 16-byte slot whose text is `" ab"`: length byte 3, then space, 'a',
'b', then 12 padding zero bytes. -/
def c9slot : List Nat := [3, 32, 97, 98] ++ List.replicate 12 0

/-- C9 counterexample: the slot `[3][" ab"][padding]` decodes successfully to
`"ab"`, whose length 2 is NOT the declared length 3 minus the number of
trailing padding characters (0) — the leading space is stripped as well. -/
theorem c9_counterexample :
    read_slot16 c9slot 0 = some ['a', 'b'] ∧
    slotLen c9slot 0 = 3 ∧
    ((slotRaw c9slot 0).reverse.takeWhile pyIsSpace).length = 0 ∧
    ¬ (['a', 'b'] : Tok).length = 3 - 0 := by
  decide

/-! ## Invariants of the Token Segmenter (claims C5, C6, C7) -/

/-- A well-formed produced token: non-empty and made only of the characters
the tokenizer keeps. -/
def goodTok (t : Tok) : Prop := t ≠ [] ∧ ∀ c ∈ t, nameChar c = true

theorem tm_flush_good {tokens : List Tok} {cur : Tok}
    (h1 : ∀ t ∈ tokens, goodTok t) (h2 : ∀ c ∈ cur, nameChar c = true) :
    ∀ t ∈ tm_flush tokens cur, goodTok t := by
  unfold tm_flush
  split
  · exact h1
  · next hc =>
    intro t ht
    rcases List.mem_append.mp ht with h | h
    · exact h1 t h
    · simp only [List.mem_singleton] at h
      subst h
      exact ⟨hc, h2⟩

theorem tm_step_good (st : List Tok × Tok) (ch : Char)
    (h1 : ∀ t ∈ st.1, goodTok t) (h2 : ∀ c ∈ st.2, nameChar c = true) :
    (∀ t ∈ (tm_step st ch).1, goodTok t) ∧ (∀ c ∈ (tm_step st ch).2, nameChar c = true) := by
  unfold tm_step
  split_ifs with hsp hnc hup
  · exact ⟨tm_flush_good h1 h2, by simp⟩
  · exact ⟨tm_flush_good h1 h2, by simp⟩
  · refine ⟨tm_flush_good h1 h2, ?_⟩
    intro c hc
    simp only [List.mem_singleton] at hc
    subst hc
    simpa using hnc
  · refine ⟨h1, ?_⟩
    intro c hc
    rcases List.mem_append.mp hc with h | h
    · exact h2 c h
    · simp only [List.mem_singleton] at h
      subst h
      simpa using hnc

theorem tm_foldl_good (s : List Char) :
    ∀ st, (∀ t ∈ st.1, goodTok t) → (∀ c ∈ st.2, nameChar c = true) →
      (∀ t ∈ (s.foldl tm_step st).1, goodTok t) ∧
      (∀ c ∈ (s.foldl tm_step st).2, nameChar c = true) := by
  induction s with
  | nil => exact fun st h1 h2 => ⟨h1, h2⟩
  | cons ch s ih =>
    intro st h1 h2
    have h := tm_step_good st ch h1 h2
    exact ih _ h.1 h.2

theorem tm_boundary_good (s : List Char) : ∀ t ∈ tm_boundary s, goodTok t := by
  unfold tm_boundary
  have h := tm_foldl_good s ([], []) (by simp) (by simp)
  exact tm_flush_good h.1 h.2

theorem goodTok_append_of (a b : Tok) (ha : a ≠ []) (ha2 : ∀ c ∈ a, nameChar c = true)
    (hb : ∀ c ∈ b, nameChar c = true) : goodTok (a ++ b) := by
  refine ⟨by simp [List.append_eq_nil, ha], ?_⟩
  intro c hc
  rcases List.mem_append.mp hc with h | h
  · exact ha2 c h
  · exact hb c h

theorem tm_mergeMc_good : ∀ (l : List Tok),
    (∀ t ∈ l, goodTok t) → ∀ t ∈ tm_mergeMc l, goodTok t
  | [], _ => by simp [tm_mergeMc]
  | [t], h => by simpa [tm_mergeMc] using h
  | t :: u :: rest, h => by
    by_cases heq : t = "Mc".toList
    · simp only [tm_mergeMc]
      rw [if_pos heq]
      intro t' ht'
      rcases List.mem_cons.mp ht' with rfl | h'
      · exact goodTok_append_of _ u (by decide) (by decide) (h u (by simp)).2
      · exact tm_mergeMc_good rest (fun x hx => h x (by simp [hx])) t' h'
    · simp only [tm_mergeMc]
      rw [if_neg heq]
      intro t' ht'
      rcases List.mem_cons.mp ht' with rfl | h'
      · exact h t' (by simp)
      · exact tm_mergeMc_good (u :: rest) (fun x hx => h x (List.mem_cons_of_mem _ hx)) t' h'

theorem tm_mergeMac_good : ∀ (l : List Tok),
    (∀ t ∈ l, goodTok t) → ∀ t ∈ tm_mergeMac l, goodTok t
  | [], _ => by simp [tm_mergeMac]
  | [t], h => by simpa [tm_mergeMac] using h
  | t :: u :: rest, h => by
    by_cases heq : t = "Mac".toList
    · simp only [tm_mergeMac]
      rw [if_pos heq]
      intro t' ht'
      rcases List.mem_cons.mp ht' with rfl | h'
      · exact goodTok_append_of _ u (by decide) (by decide) (h u (by simp)).2
      · exact tm_mergeMac_good rest (fun x hx => h x (by simp [hx])) t' h'
    · simp only [tm_mergeMac]
      rw [if_neg heq]
      intro t' ht'
      rcases List.mem_cons.mp ht' with rfl | h'
      · exact h t' (by simp)
      · exact tm_mergeMac_good (u :: rest) (fun x hx => h x (List.mem_cons_of_mem _ hx)) t' h'

/-- C5 (amended): every token produced by `tokenize_mixed` is non-empty and
composed only of letters, apostrophes, and hyphens.  (The "begins with a
letter" and "length 2–24" parts of the claim do not hold for the segmenter
itself — they are only enforced by the later `NAME_TOKEN_RE` filters.) -/
theorem c5_token_charset (s : List Char) (t : Tok) (ht : t ∈ tokenize_mixed s) :
    t ≠ [] ∧ ∀ c ∈ t, nameChar c = true := by
  unfold tokenize_mixed at ht
  exact tm_mergeMac_good _ (tm_mergeMc_good _ (tm_boundary_good s)) t ht

theorem c5_token_charset_witness :
    ("Ab".toList : Tok) ≠ [] ∧ ∀ c ∈ ("Ab".toList : Tok), nameChar c = true :=
  c5_token_charset "Ab".toList "Ab".toList (by decide)

/-- An apostrophe followed by thirty letters: one single accumulated run. -/
def c5input : List Char := '\'' :: List.replicate 30 'a'

/-- C5 counterexample: on this input the segmenter produces the whole run as
one token, which does not begin with a letter and has length 31 > 24 —
refuting the "begins with a letter" and "length 2–24" parts of the claim. -/
theorem c5_counterexample :
    tokenize_mixed c5input = [c5input] ∧
    ¬ (c5input.headD ' ').isAlpha = true ∧
    ¬ c5input.length ≤ 24 := by
  decide

/-! ## The boundary-pass exception (claim C6) -/

/-- The first token emitted by `sc_go` always extends the accumulated
token `cur`. -/
theorem sc_go_head_ext : ∀ (rest : List Char) (cur : Tok),
    ∃ ext tail, sc_go cur rest = (cur ++ ext) :: tail
  | [], cur => ⟨[], [], by simp [sc_go]⟩
  | ch :: rest, cur => by
    simp only [sc_go]
    split_ifs with h1 h2
    · obtain ⟨ext, tail, he⟩ := sc_go_head_ext rest (cur ++ [ch])
      exact ⟨[ch] ++ ext, tail, by simpa [List.append_assoc] using he⟩
    · exact ⟨[], sc_go [ch] rest, by simp⟩
    · obtain ⟨ext, tail, he⟩ := sc_go_head_ext rest (cur ++ [ch])
      exact ⟨[ch] ++ ext, tail, by simpa [List.append_assoc] using he⟩

/-- Modelled from the claim's words: the boundary pass of
`split_concatenated_names` with the no-split exception applying only when the
accumulated token is EXACTLY "Mac" or EXACTLY "Mc". -/
def sc_go_exact (cur : Tok) : List Char → List Tok
  | [] => [cur]
  | ch :: rest =>
    if ch.isUpper && cur.getLast?.any Char.isLower then
      if cur = "Mac".toList ∨ cur = "Mc".toList then
        sc_go_exact (cur ++ [ch]) rest
      else cur :: sc_go_exact [ch] rest
    else sc_go_exact (cur ++ [ch]) rest

/-- The exactly-"Mac"/"Mc" boundary pass from the claim's words. -/
def sc_boundary_exact (blob : List Char) : List Tok :=
  match blob with
  | [] => []
  | c :: rest => sc_go_exact [c] rest

/-- C6 counterexample: on "AMcB" the accumulated token at the 'c'→'B'
lower-to-upper transition is "AMc" — not exactly "Mac" or "Mc" — yet the
code accumulates 'B' into it instead of starting a new token, so the code's
boundary pass disagrees with the claimed exactly-"Mac"/"Mc" rule. -/
theorem c6_counterexample :
    sc_boundary "AMcB".toList = ["AMcB".toList] ∧
    sc_boundary_exact "AMcB".toList = ["AMc".toList, "B".toList] ∧
    sc_boundary "AMcB".toList ≠ sc_boundary_exact "AMcB".toList := by
  decide

/-- C6 (amended): in `split_concatenated_names`' boundary pass a
lower-to-upper transition starts a new token (the accumulated token is
flushed unchanged) if and only if the accumulated token does not END WITH
"Mac" or "Mc"; when it does, the uppercase character is accumulated into the
same token.  `tokenize_mixed`'s boundary pass has no such exception: it
always starts a new token at a lower-to-upper transition and relies on the
later merge passes instead. -/
theorem c6_boundary_exception (cur : Tok) (rest : List Char) (ch : Char) (tokens : List Tok)
    (hcur : cur ≠ []) (hup : ch.isUpper = true) (hlow : cur.getLast?.any Char.isLower = true) :
    ((sc_go cur (ch :: rest)).head? = some cur ↔
      ¬("Mac".toList.isSuffixOf cur || "Mc".toList.isSuffixOf cur) = true) ∧
    tm_step (tokens, cur) ch = (tokens ++ [cur], [ch]) := by
  constructor
  · simp only [sc_go, hup, hlow, Bool.and_self, if_true]
    by_cases hsuf : ("Mac".toList.isSuffixOf cur || "Mc".toList.isSuffixOf cur) = true
    · rw [if_pos hsuf]
      obtain ⟨ext, tail, he⟩ := sc_go_head_ext rest (cur ++ [ch])
      rw [he]
      simp only [List.head?_cons, hsuf, not_true]
      constructor
      · intro hEq
        have hEq' : cur ++ [ch] ++ ext = cur := by
          injection hEq
        have := congrArg List.length hEq'
        simp [List.length_append] at this
      · intro hFalse
        exact hFalse.elim
    · rw [if_neg hsuf]
      exact iff_of_true rfl hsuf
  · have hne : ¬ (ch == ' ') = true := by
      intro hsp
      rw [beq_iff_eq] at hsp
      rw [hsp] at hup
      exact absurd hup (by decide)
    have halpha : nameChar ch = true := by
      unfold nameChar
      unfold Char.isAlpha
      rw [hup]
      simp
    unfold tm_step
    rw [if_neg hne]
    have h2 : ¬ (!nameChar ch) = true := by simp [halpha]
    rw [if_neg h2]
    have h3 : (!cur.isEmpty && ch.isUpper && cur.getLast?.any Char.isLower) = true := by
      rw [hup, hlow]
      simp [List.isEmpty_iff, hcur]
    rw [if_pos h3]
    unfold tm_flush
    rw [if_neg hcur]

theorem c6_boundary_exception_witness :
    ((sc_go "AMc".toList ('B' :: [])).head? = some "AMc".toList ↔
      ¬("Mac".toList.isSuffixOf "AMc".toList || "Mc".toList.isSuffixOf "AMc".toList) = true) ∧
    tm_step ([], "AMc".toList) 'B' = ([] ++ ["AMc".toList], ['B']) :=
  c6_boundary_exception "AMc".toList [] 'B' [] (by decide) (by decide) (by decide)

/-! ## The merge pass (claim C7) -/

/-- C7 counterexample: the boundary pass of `tokenize_mixed` on "Mc apple"
produces the isolated token "Mc" followed by "apple", whose first letter is
NOT uppercase — yet the merge pass still merges them into "Mcapple",
contradicting the claimed "only if the following token starts with an
uppercase letter". -/
theorem c7_counterexample :
    tm_boundary "Mc apple".toList = ["Mc".toList, "apple".toList] ∧
    ("apple".toList.head?.any Char.isUpper) = false ∧
    tokenize_mixed "Mc apple".toList = ["Mcapple".toList] := by
  decide

/-- C7 (amended): in `tokenize_mixed`'s merge passes an isolated "Mc" (resp.
"Mac") is merged with the immediately following token iff a following token
exists, regardless of that token's case; in `split_concatenated_names`' merge
pass only "Mc" is merged, and only when the following token exists and starts
with an uppercase letter; "Mac" fragments are never merged there. -/
theorem c7_merge_pass_behavior (u : Tok) (rest : List Tok) :
    tm_mergeMc ("Mc".toList :: u :: rest) = ("Mc".toList ++ u) :: tm_mergeMc rest ∧
    tm_mergeMac ("Mac".toList :: u :: rest) = ("Mac".toList ++ u) :: tm_mergeMac rest ∧
    tm_mergeMc ["Mc".toList] = ["Mc".toList] ∧
    sc_mergeMc ("Mc".toList :: u :: rest)
      = (if u.head?.any Char.isUpper then ("Mc".toList ++ u) :: sc_mergeMc rest
         else "Mc".toList :: sc_mergeMc (u :: rest)) ∧
    sc_mergeMc ("Mac".toList :: u :: rest) = "Mac".toList :: sc_mergeMc (u :: rest) := by
  refine ⟨?_, ?_, ?_, ?_, ?_⟩
  · simp [tm_mergeMc]
  · simp [tm_mergeMac]
  · simp [tm_mergeMc]
  · simp only [sc_mergeMc]
    by_cases hu : u.head?.any Char.isUpper = true
    · rw [if_pos hu, if_pos (by simp [hu])]
    · rw [if_neg (by simp at hu; simp [hu]), if_neg (by simpa using hu)]
  · simp only [sc_mergeMc]
    rw [if_neg (by simp [show ¬(("Mac".toList : Tok) = "Mc".toList) from by decide])]

/-! ## Block Mapper (claim C4) -/

/-- Model of `NAME_TOKEN_RE.fullmatch`: a letter followed by 1 to 23 further
letters/apostrophes/hyphens. -/
def name_token_re (t : Tok) : Bool :=
  match t with
  | [] => false
  | c :: rest =>
    c.isAlpha && rest.all (fun d => d.isAlpha || d == '\'' || d == '-') &&
      1 ≤ rest.length && rest.length ≤ 23

/-- The `squadA` closure of `scot94_extract.py`'s `main`, generalized over
its captured configuration (`tokens`, `start_team_index`, `chunkA`,
`offsetA`): `start = bias + (team_index - start_index) * chunk`; return the
window `tokens[start : start + chunk]` unless it falls outside the stream. -/
def squadA (tokens : List Tok) (start_index chunk : Nat) (bias : Int)
    (team_index : Nat) : Option (List Tok) :=
  if bias + ((team_index : Int) - (start_index : Int)) * (chunk : Int) < 0 ∨
      bias + ((team_index : Int) - (start_index : Int)) * (chunk : Int) + (chunk : Int)
        > (tokens.length : Int) then none
  else
    some ((tokens.drop (bias + ((team_index : Int) - (start_index : Int)) * (chunk : Int)).toNat).take chunk)

/-- The `blocksB` loop of `main`: sequential non-overlapping `chunk`-token
windows starting at `bstart`, keeping those in which at least 12 tokens match
`NAME_TOKEN_RE`.  (`block_id` is the position in the returned list.)  A zero
`chunk` raises `ValueError` in Python (`range` step 0); modelled as the empty
result. -/
def blocksB_go (tokens : List Tok) (chunk : Nat) (bstart : Nat) : List (Nat × List Tok) :=
  if _h : bstart + chunk > tokens.length ∨ chunk = 0 then []
  else
    (if 12 ≤ (((tokens.drop bstart).take chunk).filter name_token_re).length then
      [(bstart, (tokens.drop bstart).take chunk)]
    else []) ++ blocksB_go tokens chunk (bstart + chunk)
termination_by tokens.length - bstart
decreasing_by omega

/-- The sequential content-filtered mode of the Block Mapper
(`for bstart in range(offsetB, len(tokens), chunkB)` in `main`). -/
def blocksB (tokens : List Tok) (offsetB chunk : Nat) : List (Nat × List Tok) :=
  blocksB_go tokens chunk offsetB

theorem blocksB_go_stop (tokens : List Tok) (chunk : Nat) (bstart : Nat)
    (h : bstart + chunk > tokens.length ∨ chunk = 0) :
    blocksB_go tokens chunk bstart = [] := by
  rw [blocksB_go, dif_pos h]

theorem blocksB_go_accept (tokens : List Tok) (chunk : Nat) (bstart : Nat)
    (h : ¬(bstart + chunk > tokens.length ∨ chunk = 0))
    (h12 : 12 ≤ (((tokens.drop bstart).take chunk).filter name_token_re).length) :
    blocksB_go tokens chunk bstart
      = (bstart, (tokens.drop bstart).take chunk) :: blocksB_go tokens chunk (bstart + chunk) := by
  rw [blocksB_go, dif_neg h, if_pos h12, List.singleton_append]

theorem blocksB_go_reject (tokens : List Tok) (chunk : Nat) (bstart : Nat)
    (h : ¬(bstart + chunk > tokens.length ∨ chunk = 0))
    (h12 : ¬ 12 ≤ (((tokens.drop bstart).take chunk).filter name_token_re).length) :
    blocksB_go tokens chunk bstart = blocksB_go tokens chunk (bstart + chunk) := by
  rw [blocksB_go, dif_neg h, if_neg h12, List.nil_append]

theorem blocksB_go_length (tokens : List Tok) (chunk : Nat) (bstart : Nat) :
    ∀ b ∈ blocksB_go tokens chunk bstart, b.2.length = chunk := by
  generalize hm : tokens.length - bstart = m
  induction m using Nat.strong_induction_on generalizing bstart with
  | _ m ih =>
    intro b hb
    rw [blocksB_go] at hb
    split_ifs at hb with h h12
    · simp at hb
    · rcases List.mem_append.mp hb with h1 | h1
      · simp only [List.mem_singleton] at h1
        subst h1
        simp only
        rw [List.length_take, List.length_drop]
        omega
      · exact ih (tokens.length - (bstart + chunk)) (by omega) (bstart + chunk) rfl b h1
    · rcases List.mem_append.mp hb with h1 | h1
      · simp at h1
      · exact ih (tokens.length - (bstart + chunk)) (by omega) (bstart + chunk) rfl b h1

/-- C4: every window the Block Mapper returns (per-index `squadA` mode or
sequential content-filtered `blocksB` mode) has length exactly `chunk` and a
non-negative window start; an entity whose computed window start is negative
or whose window end exceeds the token-stream length yields no block (and no
error). -/
theorem c4_block_mapper (tokens : List Tok) (start_index chunk : Nat) (bias : Int)
    (i : Nat) (offB : Nat) :
    (∀ w, squadA tokens start_index chunk bias i = some w →
      w.length = chunk ∧ 0 ≤ bias + ((i : Int) - (start_index : Int)) * (chunk : Int)) ∧
    ((bias + ((i : Int) - (start_index : Int)) * (chunk : Int) < 0 ∨
        bias + ((i : Int) - (start_index : Int)) * (chunk : Int) + (chunk : Int)
          > (tokens.length : Int)) →
      squadA tokens start_index chunk bias i = none) ∧
    (∀ b ∈ blocksB tokens offB chunk, b.2.length = chunk) := by
  refine ⟨?_, ?_, ?_⟩
  · intro w hw
    unfold squadA at hw
    split_ifs at hw with hcond
    cases hw
    push_neg at hcond
    obtain ⟨h0, h1⟩ := hcond
    refine ⟨?_, h0⟩
    rw [List.length_take, List.length_drop]
    have ht : ((bias + ((i : Int) - (start_index : Int)) * (chunk : Int)).toNat : Int)
        = bias + ((i : Int) - (start_index : Int)) * (chunk : Int) :=
      Int.toNat_of_nonneg h0
    omega
  · intro h
    unfold squadA
    rw [if_pos h]
  · exact blocksB_go_length tokens chunk offB

theorem c4_block_mapper_witness :
    (((List.replicate 5 ("Ab".toList)).drop 3).take 2).length = 2 ∧
    squadA (List.replicate 5 "Ab".toList) 0 2 (-7) 1 = none ∧
    (((List.replicate 26 ("Ab".toList)).drop 1).take 12).length = 12 := by
  refine ⟨?_, ?_, ?_⟩
  · exact ((c4_block_mapper (List.replicate 5 "Ab".toList) 0 2 1 1 0).1
      (((List.replicate 5 ("Ab".toList)).drop 3).take 2) (by decide)).1
  · exact (c4_block_mapper (List.replicate 5 "Ab".toList) 0 2 (-7) 1 0).2.1 (by decide)
  · refine (c4_block_mapper (List.replicate 26 "Ab".toList) 0 12 0 0 1).2.2
      (1, ((List.replicate 26 ("Ab".toList)).drop 1).take 12) ?_
    unfold blocksB
    rw [blocksB_go_accept _ _ _ (by decide) (by decide)]
    exact List.mem_cons_self _ _

/-! ## Unaligned Pascal Scanner (claim C8) -/

/-- Model of `is_printable_name_bytes`: A–Z, a–z, space, apostrophe, hyphen, period. -/
def printableNameByte (b : Nat) : Bool :=
  (65 ≤ b && b ≤ 90) || (97 ≤ b && b ≤ 122) || b == 32 || b == 39 || b == 45 || b == 46

/-- The candidate length byte at cursor `i`: `L = data[i]`. -/
def pascal_L (data : List Nat) (i : Nat) : Nat := data.getD i 0

/-- The candidate text bytes at cursor `i`: `data[i + 1 : i + 1 + L]`. -/
def pascal_sbytes (data : List Nat) (i : Nat) : List Nat :=
  (data.drop (i + 1)).take (pascal_L data i)

/-- The candidate's decoded, stripped text. -/
def pascal_text (data : List Nat) (i : Nat) : Tok :=
  pyStrip ((pascal_sbytes data i).map cp437)

/-- The scan loop of `extract_pascal_strings`.  On a candidate that is in
range, fits, and is printable, the cursor advances by `1 + L` whether or not
a token is emitted (the `i += 1 + L; continue` sits outside the
any-alphabetic test); every other candidate advances the cursor by 1. -/
def extract_pascal_go (data : List Nat) (minL maxL : Nat) (i : Nat) : List (Nat × Tok) :=
  if h : i < data.length - 2 then
    if minL ≤ pascal_L data i ∧ pascal_L data i ≤ maxL ∧ i + 1 + pascal_L data i ≤ data.length then
      if (pascal_sbytes data i).all printableNameByte then
        (if (pascal_text data i).any Char.isAlpha then [(i, pascal_text data i)] else [])
          ++ extract_pascal_go data minL maxL (i + 1 + pascal_L data i)
      else extract_pascal_go data minL maxL (i + 1)
    else extract_pascal_go data minL maxL (i + 1)
  else []
termination_by data.length - i
decreasing_by
  · omega
  · omega
  · omega

/-- Model of `extract_pascal_strings` from `scot94_extract.py` (defaults
`min_len = 3`, `max_len = 24`). -/
def extract_pascal_strings (data : List Nat) (min_len : Nat := 3) (max_len : Nat := 24) :
    List (Nat × Tok) :=
  extract_pascal_go data min_len max_len 0

theorem pascal_go_stop (data : List Nat) (minL maxL i : Nat)
    (h : ¬ i < data.length - 2) : extract_pascal_go data minL maxL i = [] := by
  rw [extract_pascal_go, dif_neg h]

theorem pascal_go_emit (data : List Nat) (minL maxL i : Nat)
    (h1 : i < data.length - 2)
    (h2 : minL ≤ pascal_L data i ∧ pascal_L data i ≤ maxL ∧
      i + 1 + pascal_L data i ≤ data.length)
    (h3 : (pascal_sbytes data i).all printableNameByte = true)
    (h4 : (pascal_text data i).any Char.isAlpha = true) :
    extract_pascal_go data minL maxL i
      = (i, pascal_text data i) :: extract_pascal_go data minL maxL (i + 1 + pascal_L data i) := by
  rw [extract_pascal_go, dif_pos h1, if_pos h2, if_pos h3, if_pos h4, List.singleton_append]

theorem pascal_go_noalpha (data : List Nat) (minL maxL i : Nat)
    (h1 : i < data.length - 2)
    (h2 : minL ≤ pascal_L data i ∧ pascal_L data i ≤ maxL ∧
      i + 1 + pascal_L data i ≤ data.length)
    (h3 : (pascal_sbytes data i).all printableNameByte = true)
    (h4 : ¬ (pascal_text data i).any Char.isAlpha = true) :
    extract_pascal_go data minL maxL i
      = extract_pascal_go data minL maxL (i + 1 + pascal_L data i) := by
  rw [extract_pascal_go, dif_pos h1, if_pos h2, if_pos h3, if_neg h4, List.nil_append]

theorem pascal_go_skip (data : List Nat) (minL maxL i : Nat)
    (h1 : i < data.length - 2)
    (h2 : ¬ (minL ≤ pascal_L data i ∧ pascal_L data i ≤ maxL ∧
        i + 1 + pascal_L data i ≤ data.length) ∨
      ¬ (pascal_sbytes data i).all printableNameByte = true) :
    extract_pascal_go data minL maxL i = extract_pascal_go data minL maxL (i + 1) := by
  rcases h2 with h2 | h2
  · rw [extract_pascal_go, dif_pos h1, if_neg h2]
  · by_cases hr : minL ≤ pascal_L data i ∧ pascal_L data i ≤ maxL ∧
        i + 1 + pascal_L data i ≤ data.length
    · rw [extract_pascal_go, dif_pos h1, if_pos hr, if_neg h2]
    · rw [extract_pascal_go, dif_pos h1, if_neg hr]

/-- Every token the scan loop emits from cursor `i` onward has offset at
least `i`. -/
theorem pascal_go_mono (data : List Nat) (minL maxL : Nat) (i : Nat) :
    ∀ q s, (q, s) ∈ extract_pascal_go data minL maxL i → i ≤ q := by
  generalize hm : data.length - i = m
  induction m using Nat.strong_induction_on generalizing i with
  | _ m ih =>
    intro q s hq
    by_cases h1 : i < data.length - 2
    · by_cases h2 : minL ≤ pascal_L data i ∧ pascal_L data i ≤ maxL ∧
          i + 1 + pascal_L data i ≤ data.length
      · by_cases h3 : (pascal_sbytes data i).all printableNameByte = true
        · by_cases h4 : (pascal_text data i).any Char.isAlpha = true
          · rw [pascal_go_emit data minL maxL i h1 h2 h3 h4] at hq
            rcases List.mem_cons.mp hq with heq | hmem
            · cases heq
              exact Nat.le_refl i
            · have := ih (data.length - (i + 1 + pascal_L data i)) (by omega)
                (i + 1 + pascal_L data i) rfl q s hmem
              omega
          · rw [pascal_go_noalpha data minL maxL i h1 h2 h3 h4] at hq
            have := ih (data.length - (i + 1 + pascal_L data i)) (by omega)
              (i + 1 + pascal_L data i) rfl q s hq
            omega
        · rw [pascal_go_skip data minL maxL i h1 (Or.inr h3)] at hq
          have := ih (data.length - (i + 1)) (by omega) (i + 1) rfl q s hq
          omega
      · rw [pascal_go_skip data minL maxL i h1 (Or.inl h2)] at hq
        have := ih (data.length - (i + 1)) (by omega) (i + 1) rfl q s hq
        omega
    · rw [pascal_go_stop data minL maxL i h1] at hq
      simp at hq

/-- C8 (amended): when the scan cursor at `p` finds an in-range, in-bounds,
printable candidate whose stripped text contains a letter, the scanner emits
exactly one token `(p, text)` and resumes at `p + 1 + L`, so no emitted token
has an offset strictly between `p` and `p + 1 + L`; a candidate that is
printable but whose text has no alphabetic character also advances the
cursor by `1 + L` (emitting nothing); only candidates failing the
range/fit/printability checks advance the cursor by exactly 1. -/
theorem c8_pascal_scanner (data : List Nat) (minL maxL i : Nat) :
    (i < data.length - 2 →
      (minL ≤ pascal_L data i ∧ pascal_L data i ≤ maxL ∧
        i + 1 + pascal_L data i ≤ data.length) →
      (pascal_sbytes data i).all printableNameByte = true →
      ((pascal_text data i).any Char.isAlpha = true →
        extract_pascal_go data minL maxL i
          = (i, pascal_text data i) :: extract_pascal_go data minL maxL (i + 1 + pascal_L data i)) ∧
      (¬ (pascal_text data i).any Char.isAlpha = true →
        extract_pascal_go data minL maxL i
          = extract_pascal_go data minL maxL (i + 1 + pascal_L data i))) ∧
    (i < data.length - 2 →
      (¬ (minL ≤ pascal_L data i ∧ pascal_L data i ≤ maxL ∧
          i + 1 + pascal_L data i ≤ data.length) ∨
        ¬ (pascal_sbytes data i).all printableNameByte = true) →
      extract_pascal_go data minL maxL i = extract_pascal_go data minL maxL (i + 1)) ∧
    (∀ q s, (q, s) ∈ extract_pascal_go data minL maxL i → i ≤ q) := by
  refine ⟨?_, ?_, ?_⟩
  · intro h1 h2 h3
    exact ⟨pascal_go_emit data minL maxL i h1 h2 h3,
      pascal_go_noalpha data minL maxL i h1 h2 h3⟩
  · intro h1 h2
    exact pascal_go_skip data minL maxL i h1 h2
  · exact pascal_go_mono data minL maxL i

/-- Witness buffer: a valid candidate `[8]"Aberdeen"` at offset 0, a
printable-but-no-letter candidate `[3]" . "` at offset 9, and an
out-of-range length byte 200 at offset 13. -/
def c8wit : List Nat :=
  [8] ++ "Aberdeen".toList.map Char.toNat ++ [3, 32, 46, 32] ++ [200, 0, 0]

theorem c8_pascal_scanner_witness :
    extract_pascal_go c8wit 3 24 0
      = (0, pascal_text c8wit 0) :: extract_pascal_go c8wit 3 24 9 ∧
    extract_pascal_go c8wit 3 24 9 = extract_pascal_go c8wit 3 24 13 ∧
    extract_pascal_go c8wit 3 24 13 = extract_pascal_go c8wit 3 24 14 ∧
    (0 : Nat) ≤ 0 := by
  refine ⟨?_, ?_, ?_, ?_⟩
  · exact ((c8_pascal_scanner c8wit 3 24 0).1 (by decide) (by decide) (by decide)).1 (by decide)
  · exact ((c8_pascal_scanner c8wit 3 24 9).1 (by decide) (by decide) (by decide)).2 (by decide)
  · exact (c8_pascal_scanner c8wit 3 24 13).2.1 (by decide) (by decide)
  · exact (c8_pascal_scanner c8wit 3 24 0).2.2 0 (pascal_text c8wit 0)
      (by
        rw [(c8_pascal_scanner c8wit 3 24 0).1 (by decide) (by decide) (by decide) |>.1 (by decide)]
        exact List.mem_cons_self _ _)

/-- Counterexample buffer: length byte 39 at offset 0 followed by 39 periods
(printable, no letters) and eight letter bytes 'A'; offset 1 holds a fully
valid candidate (length byte 46, text 38 periods + 8 letters). -/
def c8buf : List Nat := [39] ++ List.replicate 39 46 ++ List.replicate 8 65

/-- C8 counterexample: the candidate at offset 1 is in the configured range,
fits, is printable, and its text contains letters — yet
`extract_pascal_strings` emits nothing at all: the failed (no-alphabetic)
candidate at offset 0 advanced the cursor by `1 + 39 = 40`, not by 1, so the
scan never reaches offset 1.  This refutes "on every failed candidate it
advances the cursor by exactly 1 byte". -/
theorem c8_counterexample :
    (3 ≤ pascal_L c8buf 1 ∧ pascal_L c8buf 1 ≤ 50 ∧
      1 + 1 + pascal_L c8buf 1 ≤ c8buf.length) ∧
    (pascal_sbytes c8buf 1).all printableNameByte = true ∧
    (pascal_text c8buf 1).any Char.isAlpha = true ∧
    extract_pascal_strings c8buf 3 50 = [] := by
  refine ⟨by decide, by decide, by decide, ?_⟩
  unfold extract_pascal_strings
  rw [pascal_go_noalpha c8buf 3 50 0 (by decide) (by decide) (by decide) (by decide)]
  rw [show 0 + 1 + pascal_L c8buf 0 = 40 from by decide]
  rw [pascal_go_skip c8buf 3 50 40 (by decide) (by decide)]
  rw [pascal_go_skip c8buf 3 50 41 (by decide) (by decide)]
  rw [pascal_go_skip c8buf 3 50 42 (by decide) (by decide)]
  rw [pascal_go_skip c8buf 3 50 43 (by decide) (by decide)]
  rw [pascal_go_skip c8buf 3 50 44 (by decide) (by decide)]
  rw [pascal_go_skip c8buf 3 50 45 (by decide) (by decide)]
  exact pascal_go_stop c8buf 3 50 46 (by decide)

/-! ## Numeric Table Solver (claims C3, C10)

From `scot94_extract_with_attrs_and_solver.py`.  Python floats are modelled
as exact rationals: every mean-absolute-error here is a sum of absolute
integer differences divided by a positive integer, and the claims under
proof only distinguish zero from positive error, which float rounding
preserves. -/

/-- One entry of the solver's ranked output (the dict it appends). -/
structure AttrCandidate where
  kind : String
  offset : Nat
  scale : Int
  mae : ℚ
  min : Int
  max : Int
deriving DecidableEq

/-- Python `max(vals)` (errors on an empty list; modelled as 0 there — the
solver only calls it with `n ≥ 1`). -/
def pyMax (l : List Int) : Int :=
  match l with
  | [] => 0
  | x :: xs => xs.foldl max x

/-- Python `min(vals)`, same convention. -/
def pyMin (l : List Int) : Int :=
  match l with
  | [] => 0
  | x :: xs => xs.foldl min x

/-- One little-endian uint16 at byte offset `off`. -/
def u16le (data : List Nat) (off : Nat) : Int :=
  (data.getD off 0 : Int) + 256 * (data.getD (off + 1) 0 : Int)

/-- Model of `struct.unpack_from("<" + "H" * n, data, off)`. -/
def u16vals (data : List Nat) (off n : Nat) : List Int :=
  (List.range n).map (fun j => u16le data (off + 2 * j))

/-- Model of `_mean_abs_error`: sum of absolute differences over the anchor indices
present in `truth`, divided by `max(1, len(truth))`. -/
def _mean_abs_error (pred : List Int) (truth : List (Nat × Int)) : ℚ :=
  ((truth.foldl (fun acc iv => acc + |pred.getD iv.1 0 - iv.2|) 0 : Int) : ℚ)
    / ((max 1 truth.length : Nat) : ℚ)

/-- The candidate dict recorded for one `(offset, scale)` pair. -/
def mkCand (off : Nat) (k : Int) (pred : List Int) (truth : List (Nat × Int)) : AttrCandidate :=
  { kind := "u16_x" ++ toString k, offset := off, scale := k,
    mae := _mean_abs_error pred truth, min := pyMin pred, max := pyMax pred }

/-- Python `range(a, b, step)` for a non-negative `step` (`step = 0` raises
`ValueError` in Python; modelled as the empty range). -/
def rangeStep (a b step : Nat) : List Nat :=
  (List.range ((b - a + step - 1) / step)).map (fun j => a + j * step)

/-- The comparison `key=lambda r: r["mae"]` used by `out.sort`. -/
def candLE (a b : AttrCandidate) : Prop := a.mae ≤ b.mae

instance : DecidableRel candLE := fun a b => inferInstanceAs (Decidable (a.mae ≤ b.mae))

instance : IsTotal AttrCandidate candLE := ⟨fun a b => le_total a.mae b.mae⟩

instance : IsTrans AttrCandidate candLE := ⟨fun _ _ _ hab hbc => le_trans hab hbc⟩

/-- The `out` list built by the scan loop of `solve_u16_scaled_tables`:
for every in-range offset, skip the candidate if `max(vals) == 0`
(implausibility filter), otherwise record one candidate per scale. -/
def solve_candidates (data : List Nat) (n : Nat) (truth : List (Nat × Int))
    (scales : List Int) (search_start : Nat) (search_end : Option Nat)
    (step : Nat) : List AttrCandidate :=
  (rangeStep search_start
      (min (search_end.getD data.length) (data.length - 2 * n)) step).flatMap
    (fun off =>
      if pyMax (u16vals data off n) = 0 then []
      else scales.map (fun k =>
        mkCand off k ((u16vals data off n).map (fun v => v * k)) truth))

/-- Model of `solve_u16_scaled_tables`: build `out` and return it sorted by mean
absolute error ascending (Python's stable `list.sort`, modelled by stable
insertion sort). -/
def solve_u16_scaled_tables (data : List Nat) (n : Nat) (truth : List (Nat × Int))
    (scales : List Int) (search_start : Nat := 0) (search_end : Option Nat := none)
    (step : Nat := 1) : List AttrCandidate :=
  List.insertionSort candLE (solve_candidates data n truth scales search_start search_end step)

theorem foldl_abs_le {pred : List Int} :
    ∀ (truth : List (Nat × Int)) (acc : Int),
      acc ≤ truth.foldl (fun acc iv => acc + |pred.getD iv.1 0 - iv.2|) acc := by
  intro truth
  induction truth with
  | nil => intro acc; exact le_refl acc
  | cons iv l ih =>
    intro acc
    calc acc ≤ acc + |pred.getD iv.1 0 - iv.2| := le_add_of_nonneg_right (abs_nonneg _)
    _ ≤ _ := ih _

/-- The mean absolute error is never negative. -/
theorem mae_nonneg (pred : List Int) (truth : List (Nat × Int)) :
    0 ≤ _mean_abs_error pred truth := by
  unfold _mean_abs_error
  apply div_nonneg
  · exact_mod_cast foldl_abs_le truth 0
  · positivity

/-- When every anchor is matched exactly, the mean absolute error is 0. -/
theorem mae_zero (pred : List Int) (truth : List (Nat × Int))
    (h : ∀ iv ∈ truth, pred.getD iv.1 0 = iv.2) : _mean_abs_error pred truth = 0 := by
  unfold _mean_abs_error
  have hsum : ∀ (l : List (Nat × Int)), (∀ iv ∈ l, pred.getD iv.1 0 = iv.2) →
      ∀ acc : Int, l.foldl (fun acc iv => acc + |pred.getD iv.1 0 - iv.2|) acc = acc := by
    intro l
    induction l with
    | nil => intro _ acc; rfl
    | cons iv l ih =>
      intro hl acc
      have h0 : pred.getD iv.1 0 - iv.2 = 0 := by
        rw [hl iv (by simp)]
        ring
      simp only [List.foldl_cons, h0, abs_zero, add_zero]
      exact ih (fun x hx => hl x (by simp [hx])) acc
  rw [hsum truth h 0]
  simp

/-- The mean absolute error over an empty anchor map is exactly 0 (the
denominator is clamped to 1). -/
theorem mae_empty (pred : List Int) : _mean_abs_error pred [] = 0 := by
  unfold _mean_abs_error
  simp

theorem rangeStep_one_mem (a b off : Nat) (h1 : a ≤ off) (h2 : off < b) :
    off ∈ rangeStep a b 1 := by
  unfold rangeStep
  exact List.mem_map.mpr ⟨off - a, List.mem_range.mpr (by omega), by omega⟩

/-- Membership of the exact-match candidate in the unsorted `out` list. -/
theorem mem_solve_candidates (data : List Nat) (n : Nat) (truth : List (Nat × Int))
    (scales : List Int) (ss : Nat) (se : Option Nat) (off : Nat) (k : Int)
    (hlo : ss ≤ off) (hhi : off < min (se.getD data.length) (data.length - 2 * n))
    (hmx : ¬ pyMax (u16vals data off n) = 0) (hk : k ∈ scales) :
    mkCand off k ((u16vals data off n).map (fun v => v * k)) truth
      ∈ solve_candidates data n truth scales ss se 1 := by
  unfold solve_candidates
  refine List.mem_flatMap.mpr ⟨off, rangeStep_one_mem ss _ off hlo hhi, ?_⟩
  rw [if_neg hmx]
  exact List.mem_map.mpr ⟨k, hk, rfl⟩

/-- Every recorded candidate has non-negative mean absolute error. -/
theorem solve_candidates_mae_nonneg (data : List Nat) (n : Nat) (truth : List (Nat × Int))
    (scales : List Int) (ss : Nat) (se : Option Nat) (step : Nat) :
    ∀ c ∈ solve_candidates data n truth scales ss se step, 0 ≤ c.mae := by
  intro c hc
  obtain ⟨off, _, hc⟩ := List.mem_flatMap.mp hc
  split_ifs at hc with h
  · simp at hc
  · obtain ⟨k, _, rfl⟩ := List.mem_map.mp hc
    exact mae_nonneg _ _

/-- With an empty anchor map, every recorded candidate has error exactly 0. -/
theorem solve_candidates_mae_empty (data : List Nat) (n : Nat)
    (scales : List Int) (ss : Nat) (se : Option Nat) (step : Nat) :
    ∀ c ∈ solve_candidates data n [] scales ss se step, c.mae = 0 := by
  intro c hc
  obtain ⟨off, _, hc⟩ := List.mem_flatMap.mp hc
  split_ifs at hc with h
  · simp at hc
  · obtain ⟨k, _, rfl⟩ := List.mem_map.mp hc
    exact mae_empty _

/-- The head of a list is a member. -/
theorem head?_mem_self {α : Type} {l : List α} {a : α} (h : l.head? = some a) : a ∈ l := by
  cases l with
  | nil => cases h
  | cons x t =>
    simp only [List.head?_cons, Option.some.injEq] at h
    subst h
    exact List.mem_cons_self _ _

/-- The head of a `Pairwise`-ordered list is below every member (up to
equality). -/
theorem pairwise_head_le {l : List AttrCandidate} (hs : l.Pairwise candLE)
    {c : AttrCandidate} (hc : l.head? = some c) :
    ∀ x ∈ l, c = x ∨ candLE c x := by
  cases l with
  | nil => exact absurd hc (by simp)
  | cons a t =>
    simp only [List.head?_cons, Option.some.injEq] at hc
    subst hc
    intro x hx
    rcases List.mem_cons.mp hx with rfl | hx'
    · exact Or.inl rfl
    · exact Or.inr ((List.pairwise_cons.mp hs).1 x hx')

/-- C3 (amended): if the buffer holds, at a scanned offset `off` (that is,
`search_start ≤ off` and `off < min(search_end, len - 2n)` — the scan
excludes an array flush against the end of the buffer), a little-endian
uint16 array that is not all zero and whose values times scale `k` match
every supplied anchor exactly, then the ranked output restricted to
candidates at scale `k` contains a candidate at `off` with mean absolute
error 0, and the first candidate of that restriction also has mean absolute
error 0. -/
theorem c3_solver_exact_match (data : List Nat) (n : Nat) (truth : List (Nat × Int))
    (scales : List Int) (k : Int) (off : Nat) (ss : Nat) (se : Option Nat)
    (hk : k ∈ scales)
    (hlo : ss ≤ off)
    (hhi : off < min (se.getD data.length) (data.length - 2 * n))
    (hmx : ¬ pyMax (u16vals data off n) = 0)
    (hanchors : ∀ iv ∈ truth,
      ((u16vals data off n).map (fun v => v * k)).getD iv.1 0 = iv.2) :
    (∃ c ∈ (solve_u16_scaled_tables data n truth scales ss se 1).filter
        (fun c => c.scale == k), c.offset = off ∧ c.mae = 0) ∧
    (∀ c, ((solve_u16_scaled_tables data n truth scales ss se 1).filter
        (fun c => c.scale == k)).head? = some c → c.mae = 0) := by
  have hc0mem : mkCand off k ((u16vals data off n).map (fun v => v * k)) truth
      ∈ solve_candidates data n truth scales ss se 1 :=
    mem_solve_candidates data n truth scales ss se off k hlo hhi hmx hk
  have hc0mae : (mkCand off k ((u16vals data off n).map (fun v => v * k)) truth).mae = 0 :=
    mae_zero _ _ hanchors
  have hres : mkCand off k ((u16vals data off n).map (fun v => v * k)) truth
      ∈ solve_u16_scaled_tables data n truth scales ss se 1 := by
    unfold solve_u16_scaled_tables
    rw [List.mem_insertionSort]
    exact hc0mem
  have hresk : mkCand off k ((u16vals data off n).map (fun v => v * k)) truth
      ∈ (solve_u16_scaled_tables data n truth scales ss se 1).filter
        (fun c => c.scale == k) :=
    List.mem_filter.mpr ⟨hres, by simp [mkCand]⟩
  constructor
  · exact ⟨_, hresk, rfl, hc0mae⟩
  · intro c hc
    have hsorted : (solve_u16_scaled_tables data n truth scales ss se 1).Pairwise candLE :=
      List.sorted_insertionSort candLE (solve_candidates data n truth scales ss se 1)
    have hfs : ((solve_u16_scaled_tables data n truth scales ss se 1).filter
        (fun c => c.scale == k)).Pairwise candLE :=
      List.Pairwise.sublist (List.filter_sublist _) hsorted
    have hcmem : c ∈ (solve_u16_scaled_tables data n truth scales ss se 1).filter
        (fun c => c.scale == k) := head?_mem_self hc
    have hge : 0 ≤ c.mae := by
      have h1 : c ∈ solve_u16_scaled_tables data n truth scales ss se 1 :=
        (List.mem_filter.mp hcmem).1
      have h2 : c ∈ solve_candidates data n truth scales ss se 1 := by
        rw [solve_u16_scaled_tables, List.mem_insertionSort] at h1
        exact h1
      exact solve_candidates_mae_nonneg data n truth scales ss se 1 c h2
    rcases pairwise_head_le hfs hc _ hresk with heq | hle
    · rw [← heq] at hc0mae
      exact hc0mae
    · have : c.mae ≤ 0 := by
        have := hle
        unfold candLE at this
        rw [hc0mae] at this
        exact this
      exact le_antisymm this hge

theorem c3_solver_exact_match_witness :
    (∃ c ∈ (solve_u16_scaled_tables [1, 0, 2, 0, 9, 9] 2 [(0, 1), (1, 2)] [1] 0 none 1).filter
        (fun c => c.scale == 1), c.offset = 0 ∧ c.mae = 0) ∧
    (∀ c, ((solve_u16_scaled_tables [1, 0, 2, 0, 9, 9] 2 [(0, 1), (1, 2)] [1] 0 none 1).filter
        (fun c => c.scale == 1)).head? = some c → c.mae = 0) :=
  c3_solver_exact_match [1, 0, 2, 0, 9, 9] 2 [(0, 1), (1, 2)] [1] 1 0 0 none
    (by decide) (by decide) (by decide) (by decide) (by decide)

/-- A 128-byte buffer that IS a 64-entry little-endian uint16 array with
values 1..64. -/
def c3buf : List Nat := (List.range 64).flatMap (fun j => [j + 1, 0])

/-- C3 counterexample: this buffer contains (at offset 0) an exact, non-zero
64-entry little-endian uint16 array whose values at scale 1 match the single
supplied anchor exactly, yet the solver's ranked output is EMPTY — the scan
range `range(search_start, min(search_end, len - 2n))` excludes the offset
`len - 2n`, so an array flush against the end of the buffer is never
scanned and no candidate (let alone a first one with error 0) is returned. -/
theorem c3_counterexample :
    (∀ iv ∈ ([(0, 1)] : List (Nat × Int)),
      ((u16vals c3buf 0 64).map (fun v => v * 1)).getD iv.1 0 = iv.2) ∧
    ¬ pyMax (u16vals c3buf 0 64) = 0 ∧
    c3buf.length = 128 ∧
    solve_u16_scaled_tables c3buf 64 [(0, 1)] [1] 0 none 1 = [] := by
  refine ⟨by decide, by decide, by decide, ?_⟩
  decide

/-- C10: with an empty ground-truth anchor map the solver still runs to
completion, every recorded candidate has mean absolute error exactly 0
(the denominator is clamped to at least 1), and the ranked output contains
every in-range offset/scale combination that passes the implausibility
filter — all tied at error 0. -/
theorem c10_empty_truth (data : List Nat) (n : Nat) (scales : List Int)
    (ss : Nat) (se : Option Nat) :
    (∀ c ∈ solve_u16_scaled_tables data n [] scales ss se 1, c.mae = 0) ∧
    (∀ off k, ss ≤ off → off < min (se.getD data.length) (data.length - 2 * n) →
      k ∈ scales → ¬ pyMax (u16vals data off n) = 0 →
      mkCand off k ((u16vals data off n).map (fun v => v * k)) []
        ∈ solve_u16_scaled_tables data n [] scales ss se 1) := by
  constructor
  · intro c hc
    rw [solve_u16_scaled_tables, List.mem_insertionSort] at hc
    exact solve_candidates_mae_empty data n scales ss se 1 c hc
  · intro off k hlo hhi hk hmx
    rw [solve_u16_scaled_tables, List.mem_insertionSort]
    exact mem_solve_candidates data n [] scales ss se off k hlo hhi hmx hk

theorem c10_empty_truth_witness :
    (mkCand 0 2 ((u16vals [1, 0, 9] 0 1).map (fun v => v * 2)) []).mae = 0 ∧
    mkCand 0 2 ((u16vals [1, 0, 9] 0 1).map (fun v => v * 2)) []
      ∈ solve_u16_scaled_tables [1, 0, 9] 1 [] [2] 0 none 1 := by
  have hmem := (c10_empty_truth [1, 0, 9] 1 [2] 0 none).2 0 2
    (by decide) (by decide) (by decide) (by decide)
  exact ⟨(c10_empty_truth [1, 0, 9] 1 [2] 0 none).1 _ hmem, hmem⟩

end Scot94

namespace Scot94

/-- C1: segmenting the concatenation "AndersonDiamondMcNaughtonMacPherson"
yields exactly ["Anderson", "Diamond", "McNaughton", "MacPherson"], in that
order and with no other tokens — for both implementations of the Token
Segmenter. -/
theorem c1_segmenter_roundtrip :
    tokenize_mixed "AndersonDiamondMcNaughtonMacPherson".toList =
      ["Anderson".toList, "Diamond".toList, "McNaughton".toList, "MacPherson".toList] ∧
    split_concatenated_names "AndersonDiamondMcNaughtonMacPherson".toList =
      ["Anderson".toList, "Diamond".toList, "McNaughton".toList, "MacPherson".toList] := by
  decide

end Scot94
